import Mathlib

/-!
Verification of the CalHacks extraction-and-normalization pipeline.

This file gives a shallow embedding of the event-extraction core of the
repository (`parsers.py` and the recurrence-weekday inference of
`calendar_utils.py`) and proves or refutes the frozen specification claims
about it.

Modelling conventions:
* Python `datetime` values are modelled as `Int` (seconds); `timedelta(hours=h)`
  is `3600 * h`.  Python strings are modelled as `String`, with the character
  level operations carried out on `List Char` (Python indexing is by code
  point).
* Calls into the external `dateparser` library are modelled as oracles
  (`String → Option Int`): `none` stands for "returned None or raised", which
  the surrounding code treats identically (the candidate is skipped).
* The JSON values produced by the language-model backend are dynamically
  typed; the scalar universe `JVal` models them.  Aggregate values (arrays /
  objects) are represented by the payload-free constructors `jarr` / `jobj`:
  the source only ever compares raw field values with string literals or calls
  string methods on them, and both behave uniformly on every aggregate
  (comparison is `False`, method call raises).
* A Python exception inside the per-candidate `try`/`except` of the
  normalization loop is modelled by `Option.none` from `convertCandidate`:
  the loop catches every exception and continues with the next candidate.
-/

namespace CalHacks

/-- Scalar-level model of a dynamically typed JSON value (see header). -/
inductive JVal where
  | jnull
  | jbool (b : Bool)
  | jnum (n : Int)
  | jstr (s : String)
  | jarr
  | jobj
deriving DecidableEq, Repr

/-- One raw candidate record from the model's JSON array: a Python dict whose
fields may be absent (`none`) or hold an arbitrary JSON value.  Mirrors the
keys read by the loop in `extract_events_with_gemini` (`parsers.py`). -/
structure RawCandidate where
  type? : Option JVal := none
  title? : Option JVal := none
  start_text? : Option JVal := none
  end_text? : Option JVal := none
  location? : Option JVal := none
  description? : Option JVal := none
  recurring? : Option JVal := none
deriving DecidableEq, Repr

/-- An element of the iterated top-level JSON value: either a dict (modelled
by `RawCandidate`) or any non-dict value, on which `event_raw.get` raises. -/
inductive RawItem where
  | dict (c : RawCandidate)
  | nondict (v : JVal)
deriving DecidableEq, Repr

/-- Python `event_raw.get(key, default)`. -/
def pyGet (v : Option JVal) (d : JVal) : JVal := v.getD d

/-- Normalized event produced by `extract_events_with_gemini` (`parsers.py`,
lines 218-227).  Field `end_` stands for the Python key `"end"`. -/
structure NormEvent where
  title : JVal
  start : Int
  end_ : Int
  description : JVal
  location : JVal
  type : JVal
  all_day : Bool
  recurring : JVal
deriving DecidableEq, Repr

/-- Event dict produced by the heuristic extractor
`extract_events_from_text` (`parsers.py`, lines 65-71). -/
structure HeurEvent where
  title : String
  start : Int
  end_ : Int
  description : String
  location : Option String
deriving DecidableEq, Repr

/-! ### Python string primitives, on `List Char` -/

/-- Python whitespace for `str.split()` / `str.strip()`. -/
def pyIsSpace (c : Char) : Bool :=
  c = ' ' || c = '\t' || c = '\n' || c = '\r' || c.toNat = 11 || c.toNat = 12

/-- `text.find(pat)` on code points: index of the first occurrence, `none`
for Python's `-1`. -/
def listFind (l pat : List Char) : Option Nat :=
  if pat.isPrefixOf l then some 0
  else
    match l with
    | [] => none
    | _ :: t => (listFind t pat).map (· + 1)

/-- `text.rfind("\n", 0, i)`: index of the last newline strictly before
index `i`, `none` for Python's `-1`. -/
def lastNlBefore : List Char → Nat → Option Nat
  | _, 0 => none
  | [], _ + 1 => none
  | c :: t, i + 1 =>
    match lastNlBefore t i with
    | some k => some (k + 1)
    | none => if c = '\n' then some 0 else none

/-- `text.find("\n", j)`, with Python's `-1` already replaced by `len(text)`
as done at the call site (`parsers.py`, lines 25-27). -/
def findNlFrom : List Char → Nat → Nat
  | [], _ => 0
  | c :: t, 0 => if c = '\n' then 0 else findNlFrom t 0 + 1
  | _ :: t, i + 1 => findNlFrom t i + 1

/-- Python `s.strip()`. -/
def trimPy (l : List Char) : List Char :=
  ((l.dropWhile pyIsSpace).reverse.dropWhile pyIsSpace).reverse

/-- Python `s.split(".")[0]`: everything before the first period. -/
def splitDotFirst (l : List Char) : List Char := l.takeWhile (· ≠ '.')

/-- Python `s.split()` (split on whitespace runs, dropping empty parts). -/
def splitWsAux : List Char → List Char → List (List Char)
  | [], acc => if acc = [] then [] else [acc.reverse]
  | c :: t, acc =>
    if pyIsSpace c then
      if acc = [] then splitWsAux t [] else acc.reverse :: splitWsAux t []
    else splitWsAux t (c :: acc)

def pySplitWs (s : String) : List String :=
  (splitWsAux s.toList []).map String.mk

/-- Python `pat in s` (substring containment) on lists. -/
def containsSubL (l pat : List Char) : Bool := (listFind l pat).isSome

/-- Python `pat in s` (substring containment). -/
def containsSub (s pat : String) : Bool := containsSubL s.toList pat.toList

/-- Python `s.lower()` (ASCII, as exercised by the source). -/
def pyLower (s : String) : String := String.mk (s.toList.map Char.toLower)

/-- Python `s.upper()` (ASCII, as exercised by the source). -/
def pyUpper (s : String) : String := String.mk (s.toList.map Char.toUpper)

/-- Python `''.join(filter(str.isdigit, tok))`. -/
def digitsOf (s : String) : List Char := s.toList.filter Char.isDigit

/-- Value of a non-empty decimal digit string (`float(digits)` in the source,
always integral because only digit characters survive the filter). -/
def natOfDigits (l : List Char) : Nat :=
  l.foldl (fun n c => 10 * n + (c.toNat - 48)) 0

/-! ### The normalization loop of `extract_events_with_gemini` -/

/-- The end-timestamp derivation of the normalization loop (`parsers.py`,
lines 194-213; the spec's DateSpanResolver end rules): task → `start`;
sentinel `"0"`/`"none"` → `start`; hour marker → `start` plus the digits of
the first whitespace token as hours (1 hour when no digits, also reached via
the inner bare `except`); otherwise an independent future-biased parse of
`end_text` with `start + 1 hour` as fallback.  `none` models the
`AttributeError` from calling `.lower()` on a non-string `end_text`, caught
by the per-candidate `except`. -/
def resolveEnd (parse : String → Option Int) (c : RawCandidate)
    (start_dt : Int) : Option Int :=
  if pyGet c.type? (.jstr "event") = .jstr "task" then
    some start_dt
  else
    match pyGet c.end_text? (.jstr "1 hour") with
    | .jstr end_text =>
      if end_text = "0" ∨ pyLower end_text = "none" then
        some start_dt
      else if containsSub (pyLower end_text) "hour"
          ∨ containsSub (pyLower end_text) "hr" then
        match pySplitWs end_text with
        | [] => some (start_dt + 3600)
        | tok :: _ =>
          if digitsOf tok = [] then some (start_dt + 3600)
          else some (start_dt + 3600 * (natOfDigits (digitsOf tok) : Int))
      else
        match parse end_text with
        | some e => some e
        | none => some (start_dt + 3600)
    | _ => none

/-- Loop body of `extract_events_with_gemini` (`parsers.py`, lines 183-231),
for one candidate dict.  `parse` is the oracle for
`dateparser.parse(·, settings={"PREFER_DATES_FROM": "future"})`; `none` from
the oracle models both "returned None" and "raised".  A result of `none`
models "this candidate was skipped" (either via `continue` or via the
per-candidate `except` clause). -/
def convertCandidate (parse : String → Option Int) (c : RawCandidate) :
    Option NormEvent :=
  let event_type := pyGet c.type? (.jstr "event")
  match pyGet c.start_text? (.jstr "") with
  | .jstr start_text =>
    match parse start_text with
    | none => none
    | some start_dt =>
      match resolveEnd parse c start_dt with
      | none => none
      | some end_dt =>
        some
          { title := pyGet c.title? (.jstr "Event")
            start := start_dt
            end_ := end_dt
            description := pyGet c.description? (.jstr "")
            location := pyGet c.location? .jnull
            type := event_type
            all_day := (event_type == JVal.jstr "task") || (end_dt == start_dt)
            recurring := pyGet c.recurring? (.jbool false) }
  | _ => none

/-- One iteration item of the `for event_raw in events_raw` loop: non-dict
items raise on `.get` and are skipped by the per-candidate `except`. -/
def convertItem (parse : String → Option Int) : RawItem → Option NormEvent
  | .dict c => convertCandidate parse c
  | .nondict _ => none

/-- The whole normalization loop (`parsers.py`, lines 182-233): skipped
candidates simply do not contribute to the output list. -/
def normalizeCandidates (parse : String → Option Int) (items : List RawItem) :
    List NormEvent :=
  items.filterMap (convertItem parse)

/-! ### The heuristic extractor `extract_events_from_text` -/

/-- `_extract_sentence(text, i, j)` (`parsers.py`, lines 17-28): the stripped
line (delimited by line breaks) around the span `[i, j)`. -/
def extractSentenceL (cs : List Char) (i j : Nat) : List Char :=
  let left := match lastNlBefore cs i with
    | none => 0
    | some k => k + 1
  let right := findNlFrom cs j
  trimPy ((cs.take right).drop left)

/-- Loop body of `extract_events_from_text` (`parsers.py`, lines 49-72): one
event per `(matched_text, datetime)` pair returned by the date scanner. -/
def mkHeurEvent (text m : String) (dt : Int) : HeurEvent :=
  let tl := text.toList
  let ml := m.toList
  let title0 : List Char :=
    match listFind tl ml with
    | none => ml
    | some i => extractSentenceL tl i (i + ml.length)
  let title : List Char :=
    if title0.length > 140 then splitDotFirst title0 else title0
  { title := String.mk (if title ≠ [] then title else ml)
    start := dt
    end_ := dt + 3600
    description := String.mk title
    location := none }

/-- `extract_events_from_text` (`parsers.py`, lines 31-74).  `search` is the
oracle for `dateparser.search.search_dates(text, settings=...)` (the settings
carry the future preference and the optional `RELATIVE_BASE`): `none` models
Python `None`, and the `some []` case likewise yields no events (the source
checks `if not found`). -/
def extract_events_from_text
    (search : Option String → String → Option (List (String × Int)))
    (text : String) (baseDate : Option String) : List HeurEvent :=
  match search baseDate text with
  | none => []
  | some found => found.map fun p => mkHeurEvent text p.1 p.2

/-! ### The top-level `extract_events_with_gemini` -/

def fenceJson : List Char := "```json".toList

def fencePlain : List Char := "```".toList

/-- Python `s.split(pat)` pieces needed by the fence-stripping code: the part
of `l` after the first occurrence of `pat` (all of `l` when absent). -/
def afterFirstL (l pat : List Char) : List Char :=
  match listFind l pat with
  | some i => l.drop (i + pat.length)
  | none => l

/-- The part of `l` before the first occurrence of `pat` (all of `l` when
absent); Python `l.split(pat)[0]`. -/
def upToFirstL (l pat : List Char) : List Char :=
  match listFind l pat with
  | some i => l.take i
  | none => l

/-- Python `s.split(pat)[1]` for a `pat` known to occur in `s`: the segment
between the first and second (non-overlapping) occurrences. -/
def pySegSecond (l pat : List Char) : List Char :=
  upToFirstL (afterFirstL l pat) pat

/-- Code-fence stripping of the model response (`parsers.py`, lines 172-176),
followed by the `.strip()` at the `json.loads` call site (line 179). -/
def stripFences (s : String) : String :=
  let cs := s.toList
  let stripped :=
    if containsSubL cs fenceJson then
      upToFirstL (pySegSecond cs fenceJson) fencePlain
    else if containsSubL cs fencePlain then
      upToFirstL (pySegSecond cs fencePlain) fencePlain
    else cs
  String.mk (trimPy stripped)

/-- The backend cascade (`parsers.py`, lines 146-164): the first model
identifier whose attempt succeeds provides `response.text`. -/
def firstSome (attempts : List (Option String)) : Option String :=
  (attempts.filterMap id).head?

/-- The two shapes of event dict the function can return: the heuristic
fallback events have five keys, the normalized structured events have
eight. -/
inductive ExtractResult where
  | fromHeuristic (evs : List HeurEvent)
  | fromGemini (evs : List NormEvent)
deriving DecidableEq, Repr

/-- All external state and collaborator behavior seen by one call of
`extract_events_with_gemini`: the `GEMINI_API_KEY` environment variable, the
outcome of each configured model identifier's `generate_content` attempt
(`none` = raised), the `json.loads` oracle (`none` = raised, i.e. the stripped
text is not valid JSON; iterable results are a list of items), and the two
`dateparser` oracles. -/
structure GeminiEnv where
  apiKey : Option String
  attempts : List (Option String)
  jparse : String → Option (List RawItem)
  search : Option String → String → Option (List (String × Int))
  parse : String → Option Int

/-- `extract_events_with_gemini` (`parsers.py`, lines 77-237).  Every failure
of the language-model path (no API key, all model identifiers raising, or
`json.loads` raising on the stripped response) falls back to
`extract_events_from_text` on the same text; the function itself is total
(never raises). -/
def extract_events_with_gemini (env : GeminiEnv) (text : String)
    (baseDate : Option String) : ExtractResult :=
  match env.apiKey with
  | none => .fromHeuristic (extract_events_from_text env.search text baseDate)
  | some _ =>
    match firstSome env.attempts with
    | none => .fromHeuristic (extract_events_from_text env.search text baseDate)
    | some responseText =>
      match env.jparse (stripFences responseText) with
      | none => .fromHeuristic (extract_events_from_text env.search text baseDate)
      | some items => .fromGemini (normalizeCandidates env.parse items)

/-! ### Recurrence weekday inference (`calendar_utils.py`, lines 258-297) -/

/-- `days_map` (`calendar_utils.py`, line 296). -/
def daysMap : List String := ["MO", "TU", "WE", "TH", "FR", "SA", "SU"]

/-- `day_patterns` (`calendar_utils.py`, lines 261-269), in Python dict
insertion order, which is the order the word-pattern scan iterates. -/
def dayPatterns : List (String × String) :=
  [("M", "MO"), ("MON", "MO"), ("MONDAY", "MO"),
   ("T", "TU"), ("TUE", "TU"), ("TUES", "TU"), ("TUESDAY", "TU"),
   ("W", "WE"), ("WED", "WE"), ("WEDNESDAY", "WE"),
   ("R", "TH"), ("TH", "TH"), ("THUR", "TH"), ("THURS", "TH"),
   ("THURSDAY", "TH"),
   ("F", "FR"), ("FRI", "FR"), ("FRIDAY", "FR"),
   ("SA", "SA"), ("SAT", "SA"), ("SATURDAY", "SA"),
   ("SU", "SU"), ("SUN", "SU"), ("SUNDAY", "SU")]

/-- Python `day_patterns[char]` guarded by `char in day_patterns`. -/
def charLookup (ch : Char) : Option String :=
  (dayPatterns.find? fun p => p.fst = String.mk [ch]).map (·.snd)

/-- The compact-letters pass (`calendar_utils.py`, lines 276-282). -/
def compactPass (daysStr : String) : List String :=
  if daysStr.toList.length ≤ 5
      ∧ ∀ ch ∈ daysStr.toList, ch ∈ (['M', 'T', 'W', 'R', 'F'] : List Char) then
    daysStr.toList.foldl
      (fun acc ch =>
        match charLookup ch with
        | some code => if code ∈ acc then acc else acc ++ [code]
        | none => acc)
      []
  else []

/-- The word-pattern pass (`calendar_utils.py`, lines 285-291): patterns
longer than two characters, tested by substring containment, in the
pattern-table order. -/
def wordPass (daysStr : String) : List String :=
  dayPatterns.foldl
    (fun acc p =>
      if 2 < p.fst.length ∧ containsSub daysStr p.fst then
        if p.snd ∈ acc then acc else acc ++ [p.snd]
      else acc)
    []

/-- The full weekday inference for a recurring event
(`calendar_utils.py`, lines 258-297): `description` is the event's
description, `wd` the weekday of `event.start` (`datetime.weekday()`,
0 = Monday). -/
def foundDays (description : String) (wd : Fin 7) : List String :=
  let daysStr := pyUpper description
  let fd1 := compactPass daysStr
  let fd2 := if fd1 = [] then wordPass daysStr else fd1
  if fd2 = [] then [daysMap.getD wd.val "MO"] else fd2

/-! ### Specification-side definitions

These definitions follow the words of the spec claims (not the source); they
are compared against the source-derived definitions above. -/

/-- The numeric prefix of a token: the value of its leading run of digit
characters, `none` when the token does not start with a digit.  This follows
the claim's words "has a numeric prefix N". -/
def leadingNum (s : String) : Option Nat :=
  let ds := s.toList.takeWhile Char.isDigit
  if ds = [] then none else some (natOfDigits ds)

/-- Keep the first occurrence of each element, preserving order. -/
def dedupFirst (l : List String) : List String :=
  l.foldl (fun acc c => if c ∈ acc then acc else acc ++ [c]) []

/-- The whitespace-delimited words of the uppercased description; used to
read the claim's "whole-word weekday names" literally. -/
def wordTokensU (s : String) : List String := pySplitWs (pyUpper s)

/-- A whole word's weekday code: the token must equal a pattern longer than
two characters. -/
def wholeWordCode (t : String) : Option String :=
  (dayPatterns.find? fun p => p.fst.length > 2 && p.fst = t).map (·.snd)

/-- Claim C6 exactly as stated: compact-letter mapping, else whole-word
weekday names in first-seen (description) order with duplicates removed, else
the start date's weekday code. -/
def claimC6days (description : String) (wd : Fin 7) : List String :=
  let daysStr := pyUpper description
  if daysStr.toList.length ≤ 5
      ∧ ∀ ch ∈ daysStr.toList, ch ∈ (['M', 'T', 'W', 'R', 'F'] : List Char) then
    dedupFirst (daysStr.toList.filterMap charLookup)
  else
    let codes := dedupFirst ((wordTokensU description).filterMap wholeWordCode)
    if codes = [] then [daysMap.getD wd.val "MO"] else codes

/-- Amended claim C6: like the source, the word pass matches table patterns
longer than two characters as substrings of the uppercased description (not
whole words), emitting codes in the fixed pattern-table order with duplicates
removed. -/
def amendedC6days (description : String) (wd : Fin 7) : List String :=
  let daysStr := pyUpper description
  let compact :=
    if daysStr.toList.length ≤ 5
        ∧ ∀ ch ∈ daysStr.toList, ch ∈ (['M', 'T', 'W', 'R', 'F'] : List Char) then
      dedupFirst (daysStr.toList.filterMap charLookup)
    else []
  if compact ≠ [] then compact
  else
    let word :=
      dedupFirst
        ((dayPatterns.filter fun p =>
            decide (2 < p.fst.length ∧ containsSub daysStr p.fst)).map (·.snd))
    if word ≠ [] then word else [daysMap.getD wd.val "MO"]

/-- The event-branch case of the normalizer in which `end_text` is parsed as
an independent date and the parse succeeds: the only case in which the source
adopts an end timestamp that is not `start` plus a nonnegative offset. -/
def independentParsedEnd (parse : String → Option Int) (c : RawCandidate) :
    Bool :=
  match pyGet c.type? (.jstr "event"), pyGet c.end_text? (.jstr "1 hour") with
  | ty, .jstr es =>
    !(ty == JVal.jstr "task")
      && !(es == "0" || pyLower es == "none")
      && !(containsSub (pyLower es) "hour" || containsSub (pyLower es) "hr")
      && (parse es).isSome
  | _, _ => false

/-- The lines of a text, splitting at every newline (Python
`text.split("\n")` semantics). -/
def splitNl : List Char → List (List Char)
  | [] => [[]]
  | c :: t =>
    if c = '\n' then [] :: splitNl t
    else
      match splitNl t with
      | [] => [[c]]
      | h :: r => (c :: h) :: r

/-- The claim's title recipe applied to a line: strip it, and when the result
exceeds 140 characters keep only the text before the first period. -/
def clipStr (l : List Char) : String :=
  if (trimPy l).length > 140 then String.mk (splitDotFirst (trimPy l))
  else String.mk (trimPy l)

/-! ### Concrete inputs used by the witnesses and counterexamples below -/

def c1Env : GeminiEnv :=
  { apiKey := none
    attempts := []
    jparse := fun _ => none
    search := fun _ _ => none
    parse := fun _ => none }

def c3Parse : String → Option Int := fun s =>
  if s = "Friday Oct 10" then some 86400 else none

def c3Cand : RawCandidate :=
  { type? := some (.jstr "task")
    title? := some (.jstr "Problem Set 3")
    start_text? := some (.jstr "Friday Oct 10")
    end_text? := some (.jstr "5pm")
    description? := some (.jstr "Assignment Friday") }

def c5Parse : String → Option Int := fun s =>
  if s = "Jan 5 2026" then some 111 else none

def c5Good : RawCandidate :=
  { title? := some (.jstr "Lecture")
    start_text? := some (.jstr "Jan 5 2026") }

def c5Bad : RawCandidate :=
  { title? := some (.jstr "Ghost")
    start_text? := some (.jstr "") }

def c10Parse : String → Option Int := fun s =>
  if s = "Dec 1" then some 300 else if s = "Dec 8" then some 900 else none

def c10Bad : RawCandidate :=
  { title? := some (.jstr "Broken")
    start_text? := some (.jstr "Dec 1")
    end_text? := some (.jnum 0) }

def c10GoodA : RawCandidate :=
  { title? := some (.jstr "Quiz")
    start_text? := some (.jstr "Dec 1") }

def c10GoodB : RawCandidate :=
  { title? := some (.jstr "Final")
    start_text? := some (.jstr "Dec 8") }

def c7Parse : String → Option Int := fun s =>
  if s = "October 1, 2025" then some 1759305600 else none

def c7Cand : RawCandidate :=
  { type? := some (.jstr "meeting")
    title? := some (.jstr "Sync")
    start_text? := some (.jstr "October 1, 2025")
    end_text? := some (.jstr "1 hour") }

/-- C7 is false on the code: an unrecognized `type` value (`"meeting"`) is
passed through verbatim into the normalized event's `type` field instead of
being defaulted to `"event"`. -/

def c7bParse : String → Option Int := fun s =>
  if s = "Nov 12" then some 7000 else none

def c7bCand : RawCandidate :=
  { type? := some (.jstr "deadline")
    start_text? := some (.jstr "Nov 12")
    end_text? := some (.jstr "0") }

def c7bEvent : NormEvent :=
  { title := .jstr "Event"
    start := 7000
    end_ := 7000
    description := .jstr ""
    location := .jnull
    type := .jstr "deadline"
    all_day := true
    recurring := .jbool false }

def c8Parse : String → Option Int := fun s =>
  if s = "Nov 2" then some 2000 else none

def c8Cand : RawCandidate :=
  { title? := some (.jstr "")
    start_text? := some (.jstr "Nov 2") }

/-- C8 is false on the code: `event_raw.get('title', 'Event')` only defaults
when the key is absent, so a present-but-empty title survives and the
normalized event's title is the empty string. -/

def c8bParse : String → Option Int := fun s =>
  if s = "Dec 3" then some 50 else none

def c8bCand : RawCandidate :=
  { start_text? := some (.jstr "Dec 3") }

def c8bEvent : NormEvent :=
  { title := .jstr "Event"
    start := 50
    end_ := 3650
    description := .jstr ""
    location := .jnull
    type := .jstr "event"
    all_day := false
    recurring := .jbool false }

def c2Parse : String → Option Int := fun s =>
  if s = "March 5, 2026 at 2pm" then some 1772834400
  else if s = "January 1, 2020" then some 1577836800
  else none

def c2Cand : RawCandidate :=
  { type? := some (.jstr "event")
    title? := some (.jstr "Final Review")
    start_text? := some (.jstr "March 5, 2026 at 2pm")
    end_text? := some (.jstr "January 1, 2020") }

def c2Env : GeminiEnv :=
  { apiKey := some "key"
    attempts := [some "[]"]
    jparse := fun _ => some [RawItem.dict c2Cand]
    search := fun _ _ => none
    parse := c2Parse }

/-- C2 is false on the code: in the branch that parses `end_text` as an
independent future-biased date, the parsed value is adopted unchecked, so the
pipeline emits an event with `end < start` whenever `end_text` resolves to an
earlier timestamp than `start_text` (here an explicit 2020 date against a
2026 start). -/

def c2bParse : String → Option Int := fun s =>
  if s = "Apr 2 9am" then some 900 else none

def c2bCand : RawCandidate :=
  { start_text? := some (.jstr "Apr 2 9am")
    end_text? := some (.jstr "2 hours") }

def c2bEvent : NormEvent :=
  { title := .jstr "Event"
    start := 900
    end_ := 8100
    description := .jstr ""
    location := .jnull
    type := .jstr "event"
    all_day := false
    recurring := .jbool false }

def c4Parse : String → Option Int := fun s =>
  if s = "May 1 at 10am" then some 5000 else none

def c4Cand : RawCandidate :=
  { start_text? := some (.jstr "May 1 at 10am")
    end_text? := some (.jstr "2x3 hours") }

/-- C4 is false on the code: the hour branch concatenates every digit
character of the leading token (`float(''.join(filter(str.isdigit, ...)))`),
so `end_text` `"2x3 hours"` — whose numeric prefix is 2 — yields a 23-hour
span instead of a 2-hour span. -/

def c4bParse : String → Option Int := fun s =>
  if s = "Jun 1 3pm" then some 100 else none

def c4bCand : RawCandidate :=
  { start_text? := some (.jstr "Jun 1 3pm")
    end_text? := some (.jstr "~2 hours") }

def c9Text : String :=
  String.mk ('.' :: (List.replicate 139 'x' ++ " Jan 5".toList))

def c9Search : Option String → String → Option (List (String × Int)) :=
  fun _ t => if t = c9Text then some [("Jan 5", 1767621600)] else none

def c9wText : String := "A\nMeet Jan 5 here\nB"

def c9wSearch : Option String → String → Option (List (String × Int)) :=
  fun _ t => if t = c9wText then some [("Jan 5", 42)] else none

/-! ## Helper lemmas -/

theorem firstSome_eq_none_of_all_none (l : List (Option String))
    (h : ∀ a ∈ l, a = none) : firstSome l = none := by
  induction l with
  | nil => rfl
  | cons a t ih =>
    have ha : a = none := h a (List.mem_cons_self a t)
    subst ha
    simpa [firstSome, List.filterMap_cons] using
      ih fun b hb => h b (List.mem_cons_of_mem _ hb)

/-- Inversion for a successful candidate conversion: the start text was a
string that resolved, and every copied field of the event comes from the
corresponding `event_raw.get`. -/
theorem convertCandidate_some (parse : String → Option Int) (c : RawCandidate)
    (ev : NormEvent) (h : convertCandidate parse c = some ev) :
    ∃ s t, pyGet c.start_text? (.jstr "") = .jstr s ∧ parse s = some t ∧
      ev.title = pyGet c.title? (.jstr "Event") ∧
      ev.start = t ∧
      ev.description = pyGet c.description? (.jstr "") ∧
      ev.location = pyGet c.location? .jnull ∧
      ev.type = pyGet c.type? (.jstr "event") ∧
      ev.all_day = ((pyGet c.type? (.jstr "event") == JVal.jstr "task")
        || (ev.end_ == ev.start)) ∧
      ev.recurring = pyGet c.recurring? (.jbool false) := by
  unfold convertCandidate at h
  cases hst : pyGet c.start_text? (.jstr "") <;> simp only [hst] at h
  case jstr s =>
    cases hp : parse s <;> simp only [hp] at h
    · exact Option.noConfusion h
    case some t =>
      cases hend : resolveEnd parse c t <;> simp only [hend] at h
      · exact Option.noConfusion h
      case some e =>
        have hev := Option.some.inj h
        subst hev
        exact ⟨s, t, rfl, hp, rfl, rfl, rfl, rfl, rfl, rfl, rfl⟩
  all_goals exact Option.noConfusion h

/-! ## Claim C1 -/

/-- C1: any failure of the language-model path — API key absent, every
configured model identifier failing, or the (fence-stripped) response text
not being valid JSON — makes `extract_events_with_gemini` return exactly the
heuristic extractor's result on the same input text and reference date.  The
embedding is total, which models "never raises": the caller always receives a
(possibly empty) event list. -/
theorem claim_C1_lm_failure_falls_back (env : GeminiEnv) (text : String)
    (base : Option String)
    (h : env.apiKey = none ∨ (∀ a ∈ env.attempts, a = none) ∨
      ∃ r, firstSome env.attempts = some r ∧
        env.jparse (stripFences r) = none) :
    extract_events_with_gemini env text base =
      .fromHeuristic (extract_events_from_text env.search text base) := by
  rcases h with h | h | ⟨r, hr, hp⟩
  · simp [extract_events_with_gemini, h]
  · have hn := firstSome_eq_none_of_all_none env.attempts h
    cases hk : env.apiKey with
    | none => simp [extract_events_with_gemini, hk]
    | some k => simp [extract_events_with_gemini, hk, hn]
  · cases hk : env.apiKey with
    | none => simp [extract_events_with_gemini, hk]
    | some k => simp [extract_events_with_gemini, hk, hr, hp]

/-- Witness for C1 at a concrete input: no API key configured. -/
theorem claim_C1_lm_failure_falls_back_witness :
    extract_events_with_gemini c1Env "Midterm on March 5" none =
      .fromHeuristic
        (extract_events_from_text c1Env.search "Midterm on March 5" none) :=
  claim_C1_lm_failure_falls_back c1Env "Midterm on March 5" none (Or.inl rfl)

/-! ## Claim C3 -/

/-- C3: a candidate typed `"task"` whose `start_text` resolves yields an
event with `end = start` and `all_day = true`, whatever its `end_text`
holds (the task branch never reads `end_text`). -/
theorem claim_C3_task_instantaneous (parse : String → Option Int)
    (c : RawCandidate) (s : String) (t : Int)
    (hty : pyGet c.type? (.jstr "event") = .jstr "task")
    (hst : pyGet c.start_text? (.jstr "") = .jstr s)
    (hp : parse s = some t) :
    ∃ ev, convertCandidate parse c = some ev ∧
      ev.start = t ∧ ev.end_ = t ∧ ev.all_day = true := by
  have hres : resolveEnd parse c t = some t := by
    unfold resolveEnd
    rw [if_pos hty]
  unfold convertCandidate
  simp only [hst, hp, hres]
  refine ⟨_, rfl, rfl, rfl, ?_⟩
  simp [hty]

/-- Witness for C3 at a concrete task candidate whose `end_text` is a date
phrase. -/
theorem claim_C3_task_instantaneous_witness :
    ∃ ev, convertCandidate c3Parse c3Cand = some ev ∧
      ev.start = 86400 ∧ ev.end_ = 86400 ∧ ev.all_day = true :=
  claim_C3_task_instantaneous c3Parse c3Cand "Friday Oct 10" 86400 rfl rfl
    (by decide)

/-! ## Claim C5 -/

/-- C5: a candidate whose `start_text` is empty or does not resolve is
dropped silently (the embedding is total, so nothing is raised): the batch
result is exactly the surrounding candidates' results in input order, with no
gap marker.  `hempty` records the modelled `dateparser` behavior that the
empty phrase never resolves. -/
theorem claim_C5_unparseable_start_skipped (parse : String → Option Int)
    (xs ys : List RawItem) (c : RawCandidate)
    (hempty : parse "" = none)
    (h : ∀ s, pyGet c.start_text? (.jstr "") = .jstr s →
      s = "" ∨ parse s = none) :
    normalizeCandidates parse (xs ++ RawItem.dict c :: ys) =
      normalizeCandidates parse xs ++ normalizeCandidates parse ys := by
  have hc : convertItem parse (.dict c) = none := by
    unfold convertItem convertCandidate
    cases hst : pyGet c.start_text? (.jstr "") <;> simp only [hst]
    case jstr s =>
      rcases h s hst with rfl | hs
      · simp [hempty]
      · simp [hs]
  simp [normalizeCandidates, List.filterMap_append, List.filterMap_cons, hc]

/-- Witness for C5: a batch with one good candidate followed by one with an
empty `start_text`. -/
theorem claim_C5_unparseable_start_skipped_witness :
    normalizeCandidates c5Parse [RawItem.dict c5Good, RawItem.dict c5Bad] =
      normalizeCandidates c5Parse [RawItem.dict c5Good] ++
        normalizeCandidates c5Parse [] :=
  claim_C5_unparseable_start_skipped c5Parse [RawItem.dict c5Good] [] c5Bad
    (by decide) (fun s hs => Or.inl (JVal.jstr.inj hs).symm)

/-! ## Claim C10 -/

/-- C10: an exception while converting one candidate (modelled by `none`
from `convertItem`; for example a non-string `end_text` on a non-task
candidate, on which `.lower()` raises) omits only that candidate — the loop
continues and the events of the other candidates are unaffected. -/
theorem claim_C10_per_candidate_exception_isolated
    (parse : String → Option Int) (xs ys : List RawItem) (it : RawItem)
    (h : convertItem parse it = none) :
    (normalizeCandidates parse (xs ++ it :: ys) =
        normalizeCandidates parse xs ++ normalizeCandidates parse ys) ∧
    ∀ (c : RawCandidate) (n : Int),
      pyGet c.type? (.jstr "event") ≠ .jstr "task" →
      pyGet c.end_text? (.jstr "1 hour") = .jnum n →
      convertItem parse (.dict c) = none := by
  constructor
  · simp [normalizeCandidates, List.filterMap_append, List.filterMap_cons, h]
  · intro c n hty hen
    unfold convertItem convertCandidate
    cases hst : pyGet c.start_text? (.jstr "") <;> simp only [hst]
    case jstr s =>
      cases hp : parse s <;> simp only [hp]
      case some t =>
        have hre : resolveEnd parse c t = none := by
          unfold resolveEnd
          rw [if_neg hty, hen]
        simp [hre]

/-- Witness for C10: a batch whose middle candidate has a JSON-number
`end_text`. -/
theorem claim_C10_per_candidate_exception_isolated_witness :
    (normalizeCandidates c10Parse
        [RawItem.dict c10GoodA, RawItem.dict c10Bad, RawItem.dict c10GoodB] =
      normalizeCandidates c10Parse [RawItem.dict c10GoodA] ++
        normalizeCandidates c10Parse [RawItem.dict c10GoodB]) ∧
    ∀ (c : RawCandidate) (n : Int),
      pyGet c.type? (.jstr "event") ≠ .jstr "task" →
      pyGet c.end_text? (.jstr "1 hour") = .jnum n →
      convertItem c10Parse (.dict c) = none :=
  claim_C10_per_candidate_exception_isolated c10Parse
    [RawItem.dict c10GoodA] [RawItem.dict c10GoodB] (RawItem.dict c10Bad)
    (by decide)

/-! ## Claim C7 -/

theorem claim_C7_counterexample :
    (convertCandidate c7Parse c7Cand).map NormEvent.type =
        some (JVal.jstr "meeting") ∧
      JVal.jstr "meeting" ≠ JVal.jstr "event" := ⟨rfl, by decide⟩

/-- Amended C7: a candidate whose `type` is any value other than `"task"`
(including unrecognized values) is processed by the event-branch rules and
the normalized event's `type` field retains the candidate's value verbatim;
its `all_day` flag is then exactly `end == start`. -/
theorem claim_C7_amended_type_passthrough (parse : String → Option Int)
    (c : RawCandidate) (ty : String)
    (hty : pyGet c.type? (.jstr "event") = .jstr ty) (hne : ty ≠ "task") :
    ∀ ev, convertCandidate parse c = some ev →
      ev.type = .jstr ty ∧ ev.all_day = (ev.end_ == ev.start) := by
  intro ev hev
  obtain ⟨s, t, _, _, _, _, _, _, htype, hall, _⟩ :=
    convertCandidate_some parse c ev hev
  rw [hty] at htype hall
  refine ⟨htype, ?_⟩
  rw [hall]
  have : (JVal.jstr ty == JVal.jstr "task") = false := by
    simp [hne]
  rw [this, Bool.false_or]

/-- Witness for amended C7: an unrecognized type `"deadline"` passes through
and the event gets `all_day = (end == start)`. -/
theorem claim_C7_amended_type_passthrough_witness :
    c7bEvent.type = .jstr "deadline" ∧
      c7bEvent.all_day = (c7bEvent.end_ == c7bEvent.start) :=
  claim_C7_amended_type_passthrough c7bParse c7bCand "deadline" rfl
    (by decide) c7bEvent rfl

/-! ## Claim C8 -/

theorem claim_C8_counterexample :
    (convertCandidate c8Parse c8Cand).map NormEvent.title =
        some (JVal.jstr "") ∧
      JVal.jstr "" ≠ JVal.jstr "Event" := ⟨rfl, by decide⟩

/-- Amended C8: the title default `"Event"` applies only when the `title`
field is absent; a present title value — the empty string included — is
passed through unchanged, so normalized events can carry an empty title. -/
theorem claim_C8_amended_title_default_absent_only (parse : String → Option Int)
    (c : RawCandidate) (ev : NormEvent)
    (h : convertCandidate parse c = some ev) :
    (c.title? = none → ev.title = .jstr "Event") ∧
      ∀ v, c.title? = some v → ev.title = v := by
  obtain ⟨s, t, _, _, htitle, _⟩ := convertCandidate_some parse c ev h
  constructor
  · intro hnone
    rw [htitle, hnone]
    rfl
  · intro v hv
    rw [htitle, hv]
    rfl

/-- Witness for amended C8, applied at a candidate with no title field. -/
theorem claim_C8_amended_title_default_absent_only_witness :
    (c8bCand.title? = none → c8bEvent.title = .jstr "Event") ∧
      ∀ v, c8bCand.title? = some v → c8bEvent.title = v :=
  claim_C8_amended_title_default_absent_only c8bParse c8bCand c8bEvent
    (by decide)

/-! ## Claim C2 -/

theorem claim_C2_counterexample :
    (match extract_events_with_gemini c2Env "Syllabus" none with
      | .fromGemini evs => evs.map fun ev => (ev.start, ev.end_)
      | .fromHeuristic _ => []) = [(1772834400, 1577836800)] ∧
      (1577836800 : Int) < 1772834400 := ⟨rfl, by decide⟩

/-- Amended C2: every normalized event satisfies `end >= start` except when
`end_text` was successfully parsed as an independent date (the
`independentParsedEnd` branch) — there the parsed end is adopted without
clamping and may precede `start`. -/
theorem claim_C2_amended_end_ge_start (parse : String → Option Int)
    (c : RawCandidate) (ev : NormEvent)
    (h : convertCandidate parse c = some ev)
    (hni : independentParsedEnd parse c = false) :
    ev.start ≤ ev.end_ := by
  unfold convertCandidate at h
  cases hst : pyGet c.start_text? (.jstr "") <;> simp only [hst] at h
  case jstr s =>
    cases hp : parse s <;> simp only [hp] at h
    · exact Option.noConfusion h
    case some t =>
      cases hend : resolveEnd parse c t <;> simp only [hend] at h
      · exact Option.noConfusion h
      case some e =>
        have hev := Option.some.inj h
        subst hev
        show t ≤ e
        unfold resolveEnd at hend
        unfold independentParsedEnd at hni
        by_cases hty : pyGet c.type? (.jstr "event") = .jstr "task"
        · rw [if_pos hty] at hend
          have := Option.some.inj hend
          omega
        · rw [if_neg hty] at hend
          cases het : pyGet c.end_text? (.jstr "1 hour") <;>
            simp only [het] at hend hni <;>
            try exact Option.noConfusion hend
          rename_i es
          · by_cases h0 : es = "0" ∨ pyLower es = "none"
            · rw [if_pos h0] at hend
              have := Option.some.inj hend
              omega
            · rw [if_neg h0] at hend
              by_cases hhr : containsSub (pyLower es) "hour" = true
                  ∨ containsSub (pyLower es) "hr" = true
              · rw [if_pos hhr] at hend
                cases hsp : pySplitWs es <;> simp only [hsp] at hend
                · have := Option.some.inj hend
                  omega
                · rename_i tok rest
                  by_cases hds : digitsOf tok = []
                  · rw [if_pos hds] at hend
                    have := Option.some.inj hend
                    omega
                  · rw [if_neg hds] at hend
                    have := Option.some.inj hend
                    have hk : (0 : Int) ≤
                        3600 * (natOfDigits (digitsOf tok) : Int) := by
                      positivity
                    omega
              · rw [if_neg hhr] at hend
                cases hpe : parse es <;> simp only [hpe] at hend hni
                · have := Option.some.inj hend
                  omega
                · exfalso
                  have h01 : es ≠ "0" := fun he => h0 (Or.inl he)
                  have h02 : pyLower es ≠ "none" := fun he => h0 (Or.inr he)
                  have hr1 : containsSub (pyLower es) "hour" = false :=
                    Bool.eq_false_iff.mpr fun hcs => hhr (Or.inl hcs)
                  have hr2 : containsSub (pyLower es) "hr" = false :=
                    Bool.eq_false_iff.mpr fun hcs => hhr (Or.inr hcs)
                  simp [hty, h01, h02, hr1, hr2] at hni
  all_goals exact Option.noConfusion h

/-- Witness for amended C2 at a concrete hour-branch candidate. -/
theorem claim_C2_amended_end_ge_start_witness :
    c2bEvent.start ≤ c2bEvent.end_ :=
  claim_C2_amended_end_ge_start c2bParse c2bCand c2bEvent (by decide) (by decide)

/-! ## Claim C4 -/

theorem claim_C4_counterexample :
    leadingNum "2x3" = some 2 ∧
    (convertCandidate c4Parse c4Cand).map (fun ev => ev.end_ - ev.start) =
        some (23 * 3600) ∧
      (23 * 3600 : Int) ≠ 2 * 3600 := ⟨rfl, rfl, by decide⟩

/-- Amended C4: in the hour branch the span is `N` hours where `N` is the
number formed by concatenating all digit characters of the leading
whitespace-delimited token of `end_text` (not just its numeric prefix); when
that token has no digit characters the span defaults to 1 hour. -/
theorem claim_C4_amended_hours_all_digits (parse : String → Option Int)
    (c : RawCandidate) (s es : String) (t : Int)
    (hty : pyGet c.type? (.jstr "event") ≠ .jstr "task")
    (hst : pyGet c.start_text? (.jstr "") = .jstr s)
    (hp : parse s = some t)
    (het : pyGet c.end_text? (.jstr "1 hour") = .jstr es)
    (hhr : containsSub (pyLower es) "hour" = true
      ∨ containsSub (pyLower es) "hr" = true) :
    ∃ ev, convertCandidate parse c = some ev ∧ ev.start = t ∧
      ev.end_ = (if digitsOf ((pySplitWs es).headD "") = [] then t + 3600
        else t + 3600 *
          (natOfDigits (digitsOf ((pySplitWs es).headD "")) : Int)) := by
  have h01 : ¬(es = "0") := by
    rintro rfl
    rcases hhr with hcs | hcs <;> exact absurd hcs (by decide)
  have h02 : ¬(pyLower es = "none") := by
    intro hn
    rw [hn] at hhr
    rcases hhr with hcs | hcs <;> exact absurd hcs (by decide)
  have hres : resolveEnd parse c t =
      some (if digitsOf ((pySplitWs es).headD "") = [] then t + 3600
        else t + 3600 *
          (natOfDigits (digitsOf ((pySplitWs es).headD "")) : Int)) := by
    unfold resolveEnd
    rw [if_neg hty]
    simp only [het]
    rw [if_neg fun hd => hd.elim h01 h02, if_pos hhr]
    cases hsp : pySplitWs es
    · have hd : digitsOf "" = [] := rfl
      rw [List.headD_nil, if_pos hd]
    case cons tok rest =>
      simp only [List.headD_cons]
      split <;> rfl
  unfold convertCandidate
  simp only [hst, hp, hres]
  exact ⟨_, rfl, rfl, rfl⟩

/-- Witness for amended C4 at the spec's own example `"~2 hours"`. -/
theorem claim_C4_amended_hours_all_digits_witness :
    ∃ ev, convertCandidate c4bParse c4bCand = some ev ∧ ev.start = 100 ∧
      ev.end_ = (if digitsOf ((pySplitWs "~2 hours").headD "") = []
        then (100 : Int) + 3600
        else 100 + 3600 *
          (natOfDigits (digitsOf ((pySplitWs "~2 hours").headD "")) : Int)) :=
  claim_C4_amended_hours_all_digits c4bParse c4bCand "Jun 1 3pm" "~2 hours" 100
    (by decide) rfl (by decide) rfl (Or.inl (by decide))

/-! ## Claim C6 -/

/-- Folding a lookup with inline de-duplication equals de-duplicating the
de-optioned list: the shape shared by the compact-letter pass and
`dedupFirst`. -/
theorem compact_foldl_eq_dedup (f : Char → Option String) (l : List Char)
    (acc : List String) :
    l.foldl
      (fun acc ch =>
        match f ch with
        | some code => if code ∈ acc then acc else acc ++ [code]
        | none => acc) acc =
    (l.filterMap f).foldl
      (fun acc c => if c ∈ acc then acc else acc ++ [c]) acc := by
  induction l generalizing acc with
  | nil => rfl
  | cons ch t ih =>
    cases hf : f ch <;>
      simp only [List.foldl_cons, List.filterMap_cons, hf]
    · exact ih acc
    · exact ih _

/-- Folding a guarded append with inline de-duplication equals
de-duplicating the filtered-and-mapped list: the shape shared by the
word-pattern pass and `dedupFirst`. -/
theorem word_foldl_eq_dedup (P : String × String → Prop) [DecidablePred P]
    (l : List (String × String)) (acc : List String) :
    l.foldl
      (fun acc p =>
        if P p then (if p.snd ∈ acc then acc else acc ++ [p.snd]) else acc)
      acc =
    ((l.filter fun p => decide (P p)).map Prod.snd).foldl
      (fun acc c => if c ∈ acc then acc else acc ++ [c]) acc := by
  induction l generalizing acc with
  | nil => rfl
  | cons p t ih =>
    by_cases hp : P p
    · rw [List.foldl_cons, if_pos hp,
        show (p :: t).filter (fun p => decide (P p)) =
          p :: t.filter (fun p => decide (P p)) from by
            simp [List.filter_cons, hp],
        List.map_cons, List.foldl_cons]
      exact ih _
    · rw [List.foldl_cons, if_neg hp,
        show (p :: t).filter (fun p => decide (P p)) =
          t.filter (fun p => decide (P p)) from by
            simp [List.filter_cons, hp]]
      exact ih acc

/-- C6 is false on the code: the word pass matches table patterns as
substrings (not whole words) and emits codes in the pattern-table order (not
first-seen order).  On description `"FRIDAY LEMONADE"` (start weekday
Thursday) the claim's cascade finds the single whole-word weekday `FRIDAY`
and yields `["FR"]`, but the code also matches `MON` inside `LEMONADE` and
puts it first, yielding `["MO", "FR"]`. -/
theorem claim_C6_counterexample :
    foundDays "FRIDAY LEMONADE" (3 : Fin 7) = ["MO", "FR"] ∧
      claimC6days "FRIDAY LEMONADE" (3 : Fin 7) = ["FR"] ∧
      (["MO", "FR"] : List String) ≠ ["FR"] := ⟨rfl, rfl, by decide⟩

/-- Amended C6: the weekday set of a recurring event's rule is determined by
this cascade — if the uppercased description is at most 5 characters and
composed only of `M,T,W,R,F`, each character maps individually (with
duplicates removed); otherwise table patterns longer than 2 characters that
occur as substrings of the uppercased description map to their codes, in the
fixed table order (Monday's patterns through Sunday's), duplicates removed;
otherwise the single weekday code of the event's start date.  The resulting
set is never empty. -/
theorem claim_C6_amended_weekday_inference (description : String)
    (wd : Fin 7) :
    foundDays description wd = amendedC6days description wd ∧
      foundDays description wd ≠ [] := by
  have hcompact : compactPass (pyUpper description) =
      (if (pyUpper description).toList.length ≤ 5
          ∧ ∀ ch ∈ (pyUpper description).toList,
              ch ∈ (['M', 'T', 'W', 'R', 'F'] : List Char) then
        dedupFirst ((pyUpper description).toList.filterMap charLookup)
      else []) := by
    unfold compactPass dedupFirst
    split
    · exact compact_foldl_eq_dedup charLookup _ []
    · rfl
  have hword : wordPass (pyUpper description) =
      dedupFirst ((dayPatterns.filter fun p =>
        decide (2 < p.fst.length ∧ containsSub (pyUpper description) p.fst)).map
          Prod.snd) := by
    unfold wordPass dedupFirst
    exact word_foldl_eq_dedup _ dayPatterns []
  constructor
  · simp only [foundDays, amendedC6days]
    rw [← hcompact, ← hword]
    by_cases hG : compactPass (pyUpper description) = []
    · rw [if_pos hG, if_neg (not_not_intro hG)]
      by_cases hW : wordPass (pyUpper description) = []
      · rw [if_pos hW, if_neg (not_not_intro hW)]
      · rw [if_neg hW, if_pos hW]
    · rw [if_neg hG, if_neg hG, if_pos hG]
  · simp only [foundDays]
    split <;> first
      | (split <;> simp_all)
      | simp_all

/-! ## Line-extraction lemmas for Claim C9 -/

theorem listFind_nil (pat : List Char) :
    listFind [] pat = if pat.isPrefixOf [] = true then some 0 else none := rfl

theorem listFind_cons (c : Char) (t pat : List Char) :
    listFind (c :: t) pat =
      if pat.isPrefixOf (c :: t) = true then some 0
      else (listFind t pat).map (· + 1) := rfl

theorem lastNlBefore_zero (cs : List Char) : lastNlBefore cs 0 = none := by
  cases cs <;> rfl

theorem lastNlBefore_cons (c : Char) (t : List Char) (i : Nat) :
    lastNlBefore (c :: t) (i + 1) =
      match lastNlBefore t i with
      | some k => some (k + 1)
      | none => if c = '\n' then some 0 else none := rfl

theorem findNlFrom_nil (j : Nat) : findNlFrom [] j = 0 := rfl

theorem findNlFrom_cons_zero (c : Char) (t : List Char) :
    findNlFrom (c :: t) 0 = if c = '\n' then 0 else findNlFrom t 0 + 1 := rfl

theorem findNlFrom_cons_succ (c : Char) (t : List Char) (j : Nat) :
    findNlFrom (c :: t) (j + 1) = findNlFrom t j + 1 := rfl

theorem splitNl_nil : splitNl [] = [[]] := rfl

theorem splitNl_cons (c : Char) (t : List Char) :
    splitNl (c :: t) =
      if c = '\n' then [] :: splitNl t
      else
        match splitNl t with
        | [] => [[c]]
        | h :: r => (c :: h) :: r := rfl

theorem listFind_isPrefixOf_drop :
    ∀ {l pat : List Char} {i : Nat}, listFind l pat = some i →
      pat.isPrefixOf (l.drop i) = true := by
  intro l
  induction l with
  | nil =>
    intro pat i h
    rw [listFind_nil] at h
    split at h
    · rename_i hp
      cases Option.some.inj h
      simpa using hp
    · exact Option.noConfusion h
  | cons c t ih =>
    intro pat i h
    rw [listFind_cons] at h
    split at h
    · rename_i hp
      cases Option.some.inj h
      simpa using hp
    · cases hfind : listFind t pat with
      | none => rw [hfind] at h; exact Option.noConfusion h
      | some j =>
        rw [hfind] at h
        obtain rfl : i = j + 1 := (Option.some.inj h).symm
        exact ih hfind

theorem listFind_bound :
    ∀ {l pat : List Char} {i : Nat}, listFind l pat = some i →
      i + pat.length ≤ l.length := by
  intro l
  induction l with
  | nil =>
    intro pat i h
    rw [listFind_nil] at h
    split at h
    · rename_i hp
      cases Option.some.inj h
      cases pat with
      | nil => simp
      | cons a b => exact absurd hp (by simp [List.isPrefixOf])
    · exact Option.noConfusion h
  | cons c t ih =>
    intro pat i h
    rw [listFind_cons] at h
    split at h
    · rename_i hp
      cases Option.some.inj h
      have hle : pat.length ≤ (c :: t).length :=
        (List.isPrefixOf_iff_prefix.mp hp).length_le
      omega
    · cases hfind : listFind t pat with
      | none => rw [hfind] at h; exact Option.noConfusion h
      | some j =>
        rw [hfind] at h
        obtain rfl : i = j + 1 := (Option.some.inj h).symm
        have hb := ih hfind
        simp only [List.length_cons]
        omega

theorem listFind_isSome_of_drop :
    ∀ {l pat : List Char} {n : Nat}, pat.isPrefixOf (l.drop n) = true →
      (listFind l pat).isSome = true := by
  intro l
  induction l with
  | nil =>
    intro pat n h
    rw [List.drop_nil] at h
    rw [listFind_nil, if_pos (by simpa using h)]
    rfl
  | cons c t ih =>
    intro pat n h
    rw [listFind_cons]
    by_cases hp : pat.isPrefixOf (c :: t) = true
    · rw [if_pos hp]; rfl
    · rw [if_neg hp]
      cases n with
      | zero => exact absurd h hp
      | succ n' =>
        have := ih (n := n') h
        simpa using this

theorem isPrefixOf_take {pat l : List Char} {n : Nat}
    (h : pat.isPrefixOf l = true) (hn : pat.length ≤ n) :
    pat.isPrefixOf (l.take n) = true := by
  rw [List.isPrefixOf_iff_prefix] at h ⊢
  obtain ⟨rest, rfl⟩ := h
  rw [List.take_append_eq_append_take, List.take_of_length_le hn]
  exact List.prefix_append _ _

theorem lastNlBefore_none :
    ∀ (cs : List Char) (i : Nat), lastNlBefore cs i = none →
      ∀ m, m < i → cs.getD m ' ' ≠ '\n' := by
  intro cs
  induction cs with
  | nil =>
    intro i _ m _
    simp [List.getD]
  | cons c t ih =>
    intro i h m hm
    cases i with
    | zero => omega
    | succ i' =>
      rw [lastNlBefore_cons] at h
      cases hl : lastNlBefore t i' with
      | some k => rw [hl] at h; exact Option.noConfusion h
      | none =>
        rw [hl] at h
        have h' : (if c = '\n' then some 0 else none) = (none : Option Nat) := h
        split at h'
        · exact Option.noConfusion h'
        · rename_i hc
          cases m with
          | zero => simpa using hc
          | succ m' =>
            have := ih i' hl m' (by omega)
            simpa using this

theorem lastNlBefore_some :
    ∀ (cs : List Char) (i k : Nat), lastNlBefore cs i = some k →
      k + 1 ≤ i ∧ cs.getD k ' ' = '\n' ∧
        ∀ m, k < m → m < i → cs.getD m ' ' ≠ '\n' := by
  intro cs
  induction cs with
  | nil =>
    intro i k h
    rw [show lastNlBefore [] i = none from by cases i <;> rfl] at h
    exact Option.noConfusion h
  | cons c t ih =>
    intro i k h
    cases i with
    | zero => rw [lastNlBefore_zero] at h; exact Option.noConfusion h
    | succ i' =>
      rw [lastNlBefore_cons] at h
      cases hl : lastNlBefore t i' with
      | some k' =>
        rw [hl] at h
        obtain rfl : k = k' + 1 := (Option.some.inj h).symm
        obtain ⟨h1, h2, h3⟩ := ih i' k' hl
        refine ⟨by omega, by simpa using h2, ?_⟩
        intro m hm1 hm2
        cases m with
        | zero => omega
        | succ m' =>
          have := h3 m' (by omega) (by omega)
          simpa using this
      | none =>
        rw [hl] at h
        have h' : (if c = '\n' then some 0 else none) = some k := h
        split at h'
        · rename_i hc
          obtain rfl : k = 0 := (Option.some.inj h').symm
          refine ⟨by omega, by simpa using hc, ?_⟩
          intro m hm1 hm2
          cases m with
          | zero => omega
          | succ m' =>
            have := lastNlBefore_none t i' hl m' (by omega)
            simpa using this
        · exact Option.noConfusion h'

theorem findNlFrom_spec :
    ∀ (cs : List Char) (j : Nat), j ≤ cs.length →
      j ≤ findNlFrom cs j ∧ findNlFrom cs j ≤ cs.length ∧
        (findNlFrom cs j = cs.length ∨ cs.getD (findNlFrom cs j) ' ' = '\n') ∧
        ∀ m, j ≤ m → m < findNlFrom cs j → cs.getD m ' ' ≠ '\n' := by
  intro cs
  induction cs with
  | nil =>
    intro j hj
    have : j = 0 := by simpa using hj
    subst this
    refine ⟨by omega, by simp [findNlFrom_nil], Or.inl rfl, ?_⟩
    intro m _ hm
    rw [findNlFrom_nil] at hm
    omega
  | cons c t ih =>
    intro j hj
    cases j with
    | zero =>
      by_cases hc : c = '\n'
      · rw [findNlFrom_cons_zero, if_pos hc]
        exact ⟨by omega, by simp, Or.inr (by simpa using hc), by omega⟩
      · obtain ⟨ih1, ih2, ih3, ih4⟩ := ih 0 (by omega)
        rw [findNlFrom_cons_zero, if_neg hc]
        refine ⟨by omega, by simp only [List.length_cons]; omega, ?_, ?_⟩
        · rcases ih3 with h3 | h3
          · exact Or.inl (by simp [h3])
          · exact Or.inr (by simpa using h3)
        · intro m _ hm2
          cases m with
          | zero => simpa using hc
          | succ m' =>
            have := ih4 m' (by omega) (by omega)
            simpa using this
    | succ j' =>
      obtain ⟨ih1, ih2, ih3, ih4⟩ := ih j' (by simpa using hj)
      rw [findNlFrom_cons_succ]
      refine ⟨by omega, by simp only [List.length_cons]; omega, ?_, ?_⟩
      · rcases ih3 with h3 | h3
        · exact Or.inl (by simp [h3])
        · exact Or.inr (by simpa using h3)
      · intro m hm1 hm2
        cases m with
        | zero => omega
        | succ m' =>
          have := ih4 m' (by omega) (by omega)
          simpa using this

theorem splitNl_head :
    ∀ l : List Char, ∃ r, splitNl l = l.takeWhile (· ≠ '\n') :: r := by
  intro l
  induction l with
  | nil => exact ⟨[], rfl⟩
  | cons c t ih =>
    by_cases hc : c = '\n'
    · subst hc
      refine ⟨splitNl t, ?_⟩
      rw [splitNl_cons, if_pos rfl]
      simp [List.takeWhile_cons]
    · obtain ⟨r, hr⟩ := ih
      refine ⟨r, ?_⟩
      rw [splitNl_cons, if_neg hc, hr]
      simp [List.takeWhile_cons, hc]

theorem take_eq_takeWhile :
    ∀ (l : List Char) (r : Nat), r ≤ l.length →
      (∀ m, m < r → l.getD m ' ' ≠ '\n') →
      (r = l.length ∨ l.getD r ' ' = '\n') →
      l.take r = l.takeWhile (· ≠ '\n') := by
  intro l
  induction l with
  | nil =>
    intro r h1 _ _
    have : r = 0 := by simpa using h1
    subst this
    rfl
  | cons c t ih =>
    intro r h1 h2 h3
    cases r with
    | zero =>
      rcases h3 with h3 | h3
      · simp at h3
      · have hc : c = '\n' := by simpa using h3
        simp [List.takeWhile_cons, hc]
    | succ r' =>
      have hc : c ≠ '\n' := by
        have := h2 0 (by omega)
        simpa using this
      rw [List.take_succ_cons, List.takeWhile_cons, if_pos (by simpa using hc)]
      congr 1
      refine ih r' (by simpa using h1) ?_ ?_
      · intro m hm
        have := h2 (m + 1) (by omega)
        simpa using this
      · rcases h3 with h3 | h3
        · exact Or.inl (by simpa using h3)
        · exact Or.inr (by simpa using h3)

theorem getD_ne_of_not_mem {pat : List Char} (h : '\n' ∉ pat) (n : Nat) :
    pat.getD n ' ' ≠ '\n' := by
  by_cases hn : n < pat.length
  · rw [List.getD_eq_getElem pat ' ' hn]
    intro he
    exact h (he ▸ List.getElem_mem hn)
  · rw [List.getD_eq_default pat ' ' (by omega)]
    decide

theorem getD_of_isPrefixOf_drop {cs pat : List Char} {i : Nat}
    (h : pat.isPrefixOf (cs.drop i) = true) :
    ∀ m, i ≤ m → m < i + pat.length → cs.getD m ' ' = pat.getD (m - i) ' ' := by
  rw [List.isPrefixOf_iff_prefix] at h
  obtain ⟨rest, hdrop⟩ := h
  intro m hm1 hm2
  have hplen : pat.length ≤ (cs.drop i).length := by
    rw [← hdrop]
    simp
  have hlen : m < cs.length := by
    rw [List.length_drop] at hplen
    omega
  have e1 : cs.getD m ' ' = (cs.drop i).getD (m - i) ' ' := by
    rw [List.getD_eq_getElem?_getD, List.getD_eq_getElem?_getD,
      List.getElem?_drop]
    congr 2
    omega
  rw [e1, ← hdrop, List.getD_append]
  omega

theorem prefix_slice {cs pat : List Char} {i L R : Nat}
    (hpfx : pat.isPrefixOf (cs.drop i) = true)
    (hLi : L ≤ i) (hiR : i + pat.length ≤ R) :
    pat.isPrefixOf (((cs.take R).drop L).drop (i - L)) = true := by
  have h1 : ((cs.take R).drop L).drop (i - L) = (cs.take R).drop i := by
    rw [List.drop_drop]
    congr 1
    omega
  rw [h1, List.drop_take]
  exact isPrefixOf_take hpfx (by omega)

theorem slice_mem_splitNl :
    ∀ (cs : List Char) (l r : Nat), l ≤ r → r ≤ cs.length →
      (l = 0 ∨ cs.getD (l - 1) ' ' = '\n') →
      (r = cs.length ∨ cs.getD r ' ' = '\n') →
      (∀ m, l ≤ m → m < r → cs.getD m ' ' ≠ '\n') →
      (cs.take r).drop l ∈ splitNl cs ∧
        (1 ≤ l → (cs.take r).drop l ∈ (splitNl cs).tail) := by
  intro cs
  induction cs with
  | nil =>
    intro l r h1 h2 _ _ _
    have hr : r = 0 := by simpa using h2
    subst hr
    have hl : l = 0 := by omega
    subst hl
    constructor
    · simp [splitNl_nil]
    · intro h
      omega
  | cons c t ih =>
    intro l r h1 h2 hleft hright hmid
    cases l with
    | zero =>
      have htakeW : (c :: t).take r = (c :: t).takeWhile (· ≠ '\n') :=
        take_eq_takeWhile _ r h2 (fun m hm => hmid m (by omega) hm) hright
      obtain ⟨rest, hrest⟩ := splitNl_head (c :: t)
      refine ⟨?_, ?_⟩
      · rw [List.drop_zero, htakeW, hrest]
        exact List.mem_cons_self _ _
      · intro hcon
        omega
    | succ l' =>
      have hl' : (c :: t).getD l' ' ' = '\n' := by
        rcases hleft with h | h
        · omega
        · simpa using h
      cases r with
      | zero => omega
      | succ r'' =>
        by_cases hc : c = '\n'
        · subst hc
          have hsl : (('\n' :: t).take (r'' + 1)).drop (l' + 1) =
              (t.take r'').drop l' := by
            simp [List.take_succ_cons, List.drop_succ_cons]
          have hA : l' ≤ r'' := by omega
          have hB : r'' ≤ t.length := by simpa using h2
          have hC : l' = 0 ∨ t.getD (l' - 1) ' ' = '\n' := by
            cases l' with
            | zero => exact Or.inl rfl
            | succ l'' =>
              right
              simpa using hl'
          have hD : r'' = t.length ∨ t.getD r'' ' ' = '\n' := by
            rcases hright with h | h
            · left
              simpa using h
            · right
              simpa using h
          have hE : ∀ m, l' ≤ m → m < r'' → t.getD m ' ' ≠ '\n' := by
            intro m hm1 hm2
            have := hmid (m + 1) (by omega) (by omega)
            simpa using this
          have ihres := ih l' r'' hA hB hC hD hE
          constructor
          · rw [hsl, splitNl_cons, if_pos rfl]
            exact List.mem_cons_of_mem _ ihres.1
          · intro _
            rw [hsl, splitNl_cons, if_pos rfl]
            simpa using ihres.1
        · cases l' with
          | zero => exact absurd (by simpa using hl') hc
          | succ l'' =>
            obtain ⟨restt, hrt⟩ := splitNl_head t
            have hsl : ((c :: t).take (r'' + 1)).drop (l'' + 1 + 1) =
                (t.take r'').drop (l'' + 1) := by
              simp [List.take_succ_cons, List.drop_succ_cons]
            have hA : l'' + 1 ≤ r'' := by omega
            have hB : r'' ≤ t.length := by simpa using h2
            have hC : l'' + 1 = 0 ∨ t.getD (l'' + 1 - 1) ' ' = '\n' := by
              right
              simpa using hl'
            have hD : r'' = t.length ∨ t.getD r'' ' ' = '\n' := by
              rcases hright with h | h
              · left
                simpa using h
              · right
                simpa using h
            have hE : ∀ m, l'' + 1 ≤ m → m < r'' → t.getD m ' ' ≠ '\n' := by
              intro m hm1 hm2
              have := hmid (m + 1) (by omega) (by omega)
              simpa using this
            have ihres := ih (l'' + 1) r'' hA hB hC hD hE
            have htail := ihres.2 (by omega)
            rw [hrt] at htail
            have htail' : (t.take r'').drop (l'' + 1) ∈ restt := by
              simpa using htail
            have hsplit : splitNl (c :: t) =
                (c :: t.takeWhile (· ≠ '\n')) :: restt := by
              rw [splitNl_cons, if_neg hc, hrt]
            constructor
            · rw [hsl, hsplit]
              exact List.mem_cons_of_mem _ htail'
            · intro _
              rw [hsl, hsplit]
              simpa using htail'

/-- The line `_extract_sentence` slices around an occurrence of a
newline-free pattern is one of the text's lines and contains the pattern. -/
theorem extractSentence_line {cs pat : List Char} {i : Nat}
    (hfind : listFind cs pat = some i) (hnl : '\n' ∉ pat) :
    ∃ ℓ ∈ splitNl cs, containsSubL ℓ pat = true ∧
      extractSentenceL cs i (i + pat.length) = trimPy ℓ := by
  have hpfx := listFind_isPrefixOf_drop hfind
  have hbound := listFind_bound hfind
  obtain ⟨f1, f2, f3, f4⟩ := findNlFrom_spec cs (i + pat.length) hbound
  have hmidall : ∀ L : Nat,
      (∀ m, L ≤ m → m < i → cs.getD m ' ' ≠ '\n') →
      ∀ m, L ≤ m → m < findNlFrom cs (i + pat.length) →
        cs.getD m ' ' ≠ '\n' := by
    intro L hL m hm1 hm2
    by_cases hmi : m < i
    · exact hL m hm1 hmi
    · by_cases hmj : m < i + pat.length
      · rw [getD_of_isPrefixOf_drop hpfx m (by omega) hmj]
        exact getD_ne_of_not_mem hnl _
      · exact f4 m (by omega) hm2
  cases hlast : lastNlBefore cs i with
  | none =>
    have hnone := lastNlBefore_none cs i hlast
    refine ⟨(cs.take (findNlFrom cs (i + pat.length))).drop 0, ?_, ?_, ?_⟩
    · exact (slice_mem_splitNl cs 0 _ (by omega) f2 (Or.inl rfl) f3
        (hmidall 0 fun m _ hm => hnone m hm)).1
    · unfold containsSubL
      exact listFind_isSome_of_drop (prefix_slice hpfx (by omega) f1)
    · unfold extractSentenceL
      rw [hlast]
  | some k =>
    obtain ⟨hk1, hk2, hk3⟩ := lastNlBefore_some cs i k hlast
    refine ⟨(cs.take (findNlFrom cs (i + pat.length))).drop (k + 1), ?_, ?_, ?_⟩
    · refine (slice_mem_splitNl cs (k + 1) _ (by omega) f2 ?_ f3
        (hmidall (k + 1) fun m hm1 hm2 => hk3 m (by omega) hm2)).1
      right
      simpa using hk2
    · unfold containsSubL
      exact listFind_isSome_of_drop (prefix_slice hpfx (by omega) f1)
    · unfold extractSentenceL
      rw [hlast]

/-! ## Claim C9 -/

set_option maxRecDepth 8000 in
/-- C9 is false on the code: on a 146-character single-line text whose first
character is a period, the trimmed line exceeds 140 characters and the text
before the first period is empty, so the event's title falls back to the
matched substring (`title or match_text`) while the description stays the
empty clipped line — title and description are not both equal to the clipped
line as the claim states. -/
theorem claim_C9_counterexample :
    (extract_events_from_text c9Search c9Text none).map
        (fun ev => (ev.title, ev.description)) = [("Jan 5", "")] ∧
      ("Jan 5" : String) ≠ "" := ⟨rfl, by decide⟩

/-- Amended C9: for every date match `(m, dt)` found by the scanner, with `m`
occurring in the text and containing no line break, the produced event's
description is the trimmed line of the text containing the matched substring,
clipped to the text before the first period when it exceeds 140 characters;
the title equals that description unless the description is empty, in which
case the title falls back to the matched substring. -/
theorem claim_C9_amended_line_title
    (search : Option String → String → Option (List (String × Int)))
    (text : String) (base : Option String) (found : List (String × Int))
    (hs : search base text = some found) (m : String) (dt : Int)
    (hmem : (m, dt) ∈ found) (i : Nat)
    (hfind : listFind text.toList m.toList = some i)
    (hnl : '\n' ∉ m.toList) :
    ∃ ev ∈ extract_events_from_text search text base,
      ev.start = dt ∧ ev.end_ = dt + 3600 ∧
      ∃ ℓ ∈ splitNl text.toList, containsSubL ℓ m.toList = true ∧
        ev.description = clipStr ℓ ∧
        ev.title = (if ev.description = "" then m else ev.description) := by
  obtain ⟨ℓ, hmem2, hcont, hsent⟩ := extractSentence_line hfind hnl
  refine ⟨mkHeurEvent text m dt, ?_, rfl, rfl, ℓ, hmem2, hcont, ?_, ?_⟩
  · unfold extract_events_from_text
    rw [hs]
    exact List.mem_map_of_mem _ hmem
  · unfold mkHeurEvent
    simp only [hfind, hsent]
    unfold clipStr
    split <;> rfl
  · unfold mkHeurEvent
    simp only [hfind, hsent]
    generalize (if (trimPy ℓ).length > 140 then splitDotFirst (trimPy ℓ)
      else trimPy ℓ) = T
    by_cases hT : T = []
    · subst hT
      simp [String.ext_iff]
    · have hne : ¬(String.mk T = "") := fun he =>
        hT (by simpa [String.ext_iff] using he)
      rw [if_pos hT, if_neg hne]

/-- Witness for amended C9 on a three-line text whose middle line holds the
date match. -/
theorem claim_C9_amended_line_title_witness :
    ∃ ev ∈ extract_events_from_text c9wSearch c9wText none,
      ev.start = 42 ∧ ev.end_ = 42 + 3600 ∧
      ∃ ℓ ∈ splitNl c9wText.toList, containsSubL ℓ "Jan 5".toList = true ∧
        ev.description = clipStr ℓ ∧
        ev.title = (if ev.description = "" then "Jan 5" else ev.description) :=
  claim_C9_amended_line_title c9wSearch c9wText none [("Jan 5", 42)] rfl
    "Jan 5" 42 (by decide) 7 (by decide) (by decide)

end CalHacks
